import Mathlib

/-!
Shallow embedding of `substream/srt_utils.py` (the segmentation-and-timing
pipeline: `_words_to_subtitles`, `_adjust_duration`, `_write_srt`,
`_srt_fmt_time`, `words_to_srt`) together with proofs settling the frozen
claims about it.

Modelling conventions:
* Python `float` times are modelled as `ℚ` (exact arithmetic; all the
  operations used by the code are `+`, `-`, `min`-style comparisons,
  floor-division and modulus, which the claims exercise only on values
  where float and rational arithmetic agree).
* A `Word` models the `speech_utils.Word` dict with keys `word`,
  `start_time`, `end_time` exactly as `srt_utils.py` accesses it.
* Python generators are modelled as functions on lists.  A stage that can
  raise is modelled with an explicit error component: the pair
  `(emitted items so far, errored?)`.
* `subtitle[-1]['word'] += "\r\n"` on an empty list raises `IndexError`;
  this is the `none` case of `markLast`.
* In `_adjust_duration`, the bare `next(subtitles)` on an exhausted
  iterator raises `StopIteration` inside a generator, which Python ≥ 3.7
  (PEP 479) converts to `RuntimeError`; this is the error case of
  `adjust_duration` on `[]`.
-/

namespace Substream

/-- The `speech_utils.Word` record as used by `srt_utils.py`: a dict with
keys `word` (the text, mutated in place by the segmenter to carry a
trailing space or line separator), `start_time` and `end_time` (seconds,
modelled as rationals). -/
structure Word where
  word : String
  start_time : ℚ
  end_time : ℚ
deriving DecidableEq

/-- `Subtitle = Sequence[Word]` from `srt_utils.py`. -/
abbrev Subtitle := List Word

/-- `word['word'].endswith(('.', '?', '!'))` from line 85.  Each suffix is
a single character, so the check is exactly a test on the last character
(false for the empty string, as in Python). -/
def sentenceEnd (s : String) : Bool :=
  match s.data.getLast? with
  | some c => c == '.' || c == '?' || c == '!'
  | none => false

/-- `subtitle[-1]['word'] = subtitle[-1]['word'] + suf` (line 100):
append `suf` to the text of the last word of the list; `none` models the
`IndexError` Python raises when the list is empty. -/
def markLast (suf : String) : List Word → Option (List Word)
  | [] => none
  | [w] => some [{ w with word := w.word ++ suf }]
  | w :: x :: ws => (markLast suf (x :: ws)).map (fun t => w :: t)

/-- `allowed_lines = 2` (line 73). -/
def allowed_lines : Nat := 2

/-- The loop state of `_words_to_subtitles`: cues yielded so far (`out`),
the cue buffer `subtitle`, and the `len_line` / `line_index` counters. -/
structure SegState where
  out : List Subtitle
  subtitle : List Word
  len_line : Nat
  line_index : Nat
deriving DecidableEq

/-- One iteration of the `for word in words` loop of `_words_to_subtitles`
(lines 79–107).  `none` models the `IndexError` raised by
`subtitle[-1]` when a length break fires while the cue buffer is empty. -/
def segStep (split_on_length_gt : Nat) (st : SegState) (w : Word) :
    Option SegState :=
  -- `if len_line + len(word['word']) > split_on_length_gt` …
  let lenBreak : Bool := decide (st.len_line + w.word.length > split_on_length_gt)
  -- … `elif word['word'].endswith(('.', '?', '!'))` (the `elif` means the
  -- punctuation branch is only reached when the length check did not fire)
  let puncBreak : Bool := !lenBreak && sentenceEnd w.word
  let add_line : Bool := lenBreak || puncBreak
  -- in the punctuation branch the word is appended to the buffer first and
  -- `word` is set to `None`
  let buf : List Word := if puncBreak then st.subtitle ++ [w] else st.subtitle
  let kept : Option Word := if puncBreak then none else some w
  let afterBreak : Option SegState :=
    if add_line then
      if st.line_index + 1 == allowed_lines then
        -- `yield subtitle` and reset all buffers (lines 93–97)
        some { out := st.out ++ [buf], subtitle := [], len_line := 0, line_index := 0 }
      else
        -- append "\r\n" to the last buffered word (lines 99–102)
        match markLast "\r\n" buf with
        | none => none
        | some buf2 =>
          some { st with subtitle := buf2, len_line := 0,
                         line_index := st.line_index + 1 }
    else
      some { st with subtitle := buf }
  -- `if word is not None: word['word'] += ' '; len_line += len(word['word']);
  --  subtitle.append(word)` (lines 104–107)
  afterBreak.map (fun st1 =>
    match kept with
    | none => st1
    | some w0 =>
      let w1 : Word := { w0 with word := w0.word ++ " " }
      { st1 with subtitle := st1.subtitle ++ [w1],
                 len_line := st1.len_line + w1.word.length })

/-- Run the `_words_to_subtitles` loop over a word list.  The boolean is
`true` when the loop aborted with an `IndexError`; cues already yielded
before the abort are kept (generator semantics). -/
def segRun (split_on_length_gt : Nat) (st : SegState) :
    List Word → SegState × Bool
  | [] => (st, false)
  | w :: ws =>
    match segStep split_on_length_gt st w with
    | none => (st, true)
    | some st1 => segRun split_on_length_gt st1 ws

/-- `_words_to_subtitles(words, split_on_pause_gt=1.0, split_on_length_gt=32)`
(lines 57–110) as a function from the word list to the yielded cues plus an
error flag.  `split_on_pause_gt` is accepted (it is part of the Python
signature) but — exactly as in the source — never consulted. -/
def words_to_subtitles (split_on_pause_gt : ℚ) (split_on_length_gt : Nat)
    (words : List Word) : List Subtitle × Bool :=
  let r := segRun split_on_length_gt ⟨[], [], 0, 0⟩ words
  if r.2 then (r.1.out, true)
  else if r.1.subtitle.isEmpty then (r.1.out, false)
  else (r.1.out ++ [r.1.subtitle], false)

/-- `prev_sub[0]['start_time']`: the start time of a cue (first word).
Cues are nonempty by the segmenter's invariant; on `[]` (where Python
would raise `IndexError`) the value is irrelevant. -/
def subStart : Subtitle → ℚ
  | [] => 0
  | w :: _ => w.start_time

/-- `prev_sub[-1]['end_time']`: the end time of a cue (last word). -/
def subEnd : Subtitle → ℚ
  | [] => 0
  | [w] => w.end_time
  | _ :: x :: ws => subEnd (x :: ws)

/-- `prev_sub[-1]['end_time'] = t`: overwrite the end time of the last
word of a cue (lines 136 / 138). -/
def setEnd (t : ℚ) : Subtitle → Subtitle
  | [] => []
  | [w] => [{ w with end_time := t }]
  | w :: x :: ws => w :: setEnd t (x :: ws)

/-- The body of the `for this_sub in subtitles` loop of `_adjust_duration`
(lines 125–140): the value of `prev_sub` as yielded, after the possible
end-time fix against `this_sub`. -/
def adjustEmit (min_sub_duration : ℚ) (prev_sub this_sub : Subtitle) : Subtitle :=
  if subEnd prev_sub - subStart prev_sub ≥ min_sub_duration then
    prev_sub
  else
    -- `prev_start_plus_min = prev_sub[0]['start_time'] + min_sub_duration`,
    -- written out at both use sites
    if subStart prev_sub + min_sub_duration > subStart this_sub then
      setEnd (subStart this_sub) prev_sub
    else
      setEnd (subStart prev_sub + min_sub_duration) prev_sub

/-- The loop of `_adjust_duration` over the remaining cues, plus the final
`if this_sub: yield this_sub` (lines 125–142).  After the loop `this_sub`
is the last cue iterated over (which at that point equals `prev_sub`), or
`None` when the loop never ran — so a lone first cue is never yielded, and
an empty last cue (falsy) is dropped. -/
def adjustGo (min_sub_duration : ℚ) (prev_sub : Subtitle) :
    List Subtitle → List Subtitle
  | [] => []
  | [curr] =>
    adjustEmit min_sub_duration prev_sub curr ::
      (if curr.isEmpty then [] else [curr])
  | curr :: next :: rest =>
    adjustEmit min_sub_duration prev_sub curr ::
      adjustGo min_sub_duration curr (next :: rest)

/-- `_adjust_duration(subtitles, min_sub_duration=1.0)` (lines 113–142) on
a cue list.  On an empty input the initial `prev_sub = next(subtitles)`
raises `StopIteration`, which PEP 479 (Python ≥ 3.7) turns into a
`RuntimeError` escaping the generator: the error case, with nothing
emitted. -/
def adjust_duration (min_sub_duration : ℚ) :
    List Subtitle → List Subtitle × Bool
  | [] => ([], true)
  | prev_sub :: rest => (adjustGo min_sub_duration prev_sub rest, false)

/-- Zero-pad the decimal rendering of `n` to width `width`
(Python `'{:02}'` / `'{:03}'` format specifiers). -/
def pad (width : Nat) (n : Nat) : String :=
  let s := toString n
  if s.length < width then String.mk (List.replicate (width - s.length) '0') ++ s
  else s

/-- Floor of a rational as an integer, written with `Int.fdiv` (floored
division; the denominator is positive) so that it evaluates by kernel
reduction.  This translates Python's float floor-division `x // 1`. -/
def rfloor (q : ℚ) : ℤ := Int.fdiv q.num q.den

/-- Python's float modulus `a % b`: `a - b * (a // b)` (nonnegative for a
positive modulus). -/
def pymod (a b : ℚ) : ℚ := a - b * rfloor (a / b)

/-- `_srt_fmt_time(sec)` (lines 165–171).  Python's `int()` truncates
toward zero; every quantity it is applied to here is nonnegative for the
nonnegative times this pipeline handles, where truncation and floor
agree. -/
def srt_fmt_time (sec : ℚ) : String :=
  pad 2 (Int.toNat (rfloor (sec / 3600))) ++ ":" ++
  pad 2 (Int.toNat (rfloor (pymod sec 3600 / 60))) ++ ":" ++
  pad 2 (Int.toNat (rfloor (pymod sec 60))) ++ "," ++
  pad 3 (Int.toNat (rfloor (pymod sec 1 * 1000)))

/-- `''.join(record['word'] for record in fragment)` (line 157). -/
def sentence (fragment : Subtitle) : String :=
  String.join (fragment.map Word.word)

/-- The four `srt_file.write` calls for the fragment at 0-based index `i`
(lines 159–162). -/
def srt_block (i : Nat) (fragment : Subtitle) : String :=
  toString (i + 1) ++ "\n" ++
  srt_fmt_time (subStart fragment) ++ " --> " ++ srt_fmt_time (subEnd fragment) ++ "\n" ++
  sentence fragment ++ "\n" ++
  "\n"

/-- `_write_srt(subtitles, srt_file)` (lines 145–162): the full text
written to the sink. -/
def write_srt (subtitles : List Subtitle) : String :=
  String.join (subtitles.enum.map (fun p => srt_block p.1 p.2))

/-- `words_to_srt(words, srt_file)` (lines 20–44): the composed pipeline.
`none` models the pipeline raising (the segmenter's `IndexError`, or the
`RuntimeError` from `_adjust_duration` on an empty cue stream); any
partial sink output written before a raise is not modelled, since no
claim concerns it.  `some s` means the pipeline completed normally having
written exactly `s`. -/
def words_to_srt (words : List Word) : Option String :=
  let p1 := words_to_subtitles 1 32 words
  if p1.2 then none
  else
    let p2 := adjust_duration 1 p1.1
    if p2.2 then none else some (write_srt p2.1)

/-- Number of line-separator markers carried by a word's text, counted as
occurrences of the newline character (each inserted marker `"\r\n"`
contributes exactly one). -/
def wordNl (w : Word) : Nat := w.word.data.count '\n'

/-- Number of line-separator markers in a cue: one less than the number of
physical lines its rendered text spans. -/
def cueNl (c : Subtitle) : Nat := (c.map wordNl).sum

/-- The loop invariant of `_words_to_subtitles` (for words whose texts
carry no newline): the `line_index` counter never reaches `allowed_lines`,
it counts exactly the markers inserted in the current cue buffer, it is
zero whenever the buffer is empty, and every yielded cue is non-empty
with at most `allowed_lines - 1` markers. -/
def SegInv (st : SegState) : Prop :=
  st.line_index + 1 ≤ allowed_lines ∧
  cueNl st.subtitle = st.line_index ∧
  (st.subtitle = [] → st.line_index = 0) ∧
  ∀ c ∈ st.out, c ≠ [] ∧ cueNl c ≤ allowed_lines - 1

/-- The word-timing input of the spec's wrap/punctuation example:
`[("the",0.0,0.3),("quick",0.3,0.6),("brown",0.6,0.9),("fox.",0.9,1.3)]`. -/
def exampleWords : List Word :=
  [⟨"the", 0, 3/10⟩, ⟨"quick", 3/10, 3/5⟩, ⟨"brown", 3/5, 9/10⟩,
   ⟨"fox.", 9/10, 13/10⟩]

/- Helper lemmas about the embedded operations. -/

theorem space_length : (" " : String).length = 1 := rfl

theorem markLast_append_last (suf : String) (l : List Word) (w : Word) :
    markLast suf (l ++ [w]) = some (l ++ [{ w with word := w.word ++ suf }]) := by
  induction l with
  | nil => simp [markLast]
  | cons a l ih =>
    cases l with
    | nil => simp [markLast]
    | cons b l2 =>
      have step : markLast suf ((a :: b :: l2) ++ [w])
          = (markLast suf ((b :: l2) ++ [w])).map (fun t => a :: t) := rfl
      rw [step, ih]
      rfl

theorem segStep_no_break (L : ℕ) (st : SegState) (w : Word)
    (hlen : ¬ st.len_line + w.word.length > L) (hp : sentenceEnd w.word = false) :
    segStep L st w = some { st with
      subtitle := st.subtitle ++ [{ w with word := w.word ++ " " }],
      len_line := st.len_line + (w.word.length + 1) } := by
  simp [segStep, hlen, hp, space_length]

theorem segStep_punc_yield (L : ℕ) (st : SegState) (w : Word)
    (hlen : ¬ st.len_line + w.word.length > L) (hp : sentenceEnd w.word = true)
    (hfull : st.line_index + 1 = allowed_lines) :
    segStep L st w = some
      { out := st.out ++ [st.subtitle ++ [w]], subtitle := [],
        len_line := 0, line_index := 0 } := by
  simp [segStep, hlen, hp, hfull]

theorem segStep_punc_mark (L : ℕ) (st : SegState) (w : Word)
    (hlen : ¬ st.len_line + w.word.length > L) (hp : sentenceEnd w.word = true)
    (hfull : st.line_index + 1 ≠ allowed_lines) :
    segStep L st w = some { st with
      subtitle := st.subtitle ++ [{ w with word := w.word ++ "\r\n" }],
      len_line := 0, line_index := st.line_index + 1 } := by
  simp [segStep, hlen, hp, hfull, markLast_append_last]

theorem segStep_len_yield (L : ℕ) (st : SegState) (w : Word)
    (hlen : st.len_line + w.word.length > L)
    (hfull : st.line_index + 1 = allowed_lines) :
    segStep L st w = some
      { out := st.out ++ [st.subtitle],
        subtitle := [{ w with word := w.word ++ " " }],
        len_line := w.word.length + 1, line_index := 0 } := by
  simp [segStep, hlen, hfull, space_length]

theorem segStep_len_mark (L : ℕ) (st : SegState) (w : Word) (l0 : List Word) (u : Word)
    (hlen : st.len_line + w.word.length > L)
    (hfull : st.line_index + 1 ≠ allowed_lines)
    (hsub : st.subtitle = l0 ++ [u]) :
    segStep L st w = some
      { out := st.out,
        subtitle := (l0 ++ [{ u with word := u.word ++ "\r\n" }]) ++
          [{ w with word := w.word ++ " " }],
        len_line := w.word.length + 1, line_index := st.line_index + 1 } := by
  simp [segStep, hlen, hfull, hsub, markLast_append_last, space_length]

theorem segStep_len_crash (L : ℕ) (st : SegState) (w : Word)
    (hlen : st.len_line + w.word.length > L)
    (hfull : st.line_index + 1 ≠ allowed_lines)
    (hsub : st.subtitle = []) :
    segStep L st w = none := by
  simp [segStep, hlen, hfull, hsub, markLast]

theorem subEnd_cons_of_ne_nil (w : Word) (l : List Word) (h : l ≠ []) :
    subEnd (w :: l) = subEnd l := by
  cases l with
  | nil => exact absurd rfl h
  | cons x xs => rfl

theorem setEnd_ne_nil (t : ℚ) (c : Subtitle) (h : c ≠ []) : setEnd t c ≠ [] := by
  cases c with
  | nil => exact absurd rfl h
  | cons w ws => cases ws <;> simp [setEnd]

theorem subStart_setEnd (t : ℚ) (c : Subtitle) :
    subStart (setEnd t c) = subStart c := by
  cases c with
  | nil => rfl
  | cons w ws => cases ws <;> rfl

theorem subEnd_setEnd (t : ℚ) (c : Subtitle) (h : c ≠ []) :
    subEnd (setEnd t c) = t := by
  induction c with
  | nil => exact absurd rfl h
  | cons w ws ih =>
    cases ws with
    | nil => rfl
    | cons x ws2 =>
      have h2 : (x :: ws2 : List Word) ≠ [] := by simp
      calc subEnd (setEnd t (w :: x :: ws2))
          = subEnd (w :: setEnd t (x :: ws2)) := rfl
        _ = subEnd (setEnd t (x :: ws2)) :=
            subEnd_cons_of_ne_nil _ _ (setEnd_ne_nil t _ h2)
        _ = t := ih h2

theorem subStart_adjustEmit (m : ℚ) (p c : Subtitle) :
    subStart (adjustEmit m p c) = subStart p := by
  unfold adjustEmit
  split
  · rfl
  · split <;> exact subStart_setEnd _ _

theorem adjustEmit_le (m : ℚ) (p c : Subtitle) (hp : p ≠ [])
    (h : subEnd p ≤ subStart c) : subEnd (adjustEmit m p c) ≤ subStart c := by
  unfold adjustEmit
  split
  · exact h
  · split
    · rw [subEnd_setEnd _ _ hp]
    · next h2 =>
      rw [subEnd_setEnd _ _ hp]
      exact le_of_not_lt h2

theorem space_nl : (" " : String).data.count '\n' = 0 := rfl

theorem crlf_nl : ("\r\n" : String).data.count '\n' = 1 := rfl

theorem wordNl_append (w : Word) (s : String) :
    wordNl { w with word := w.word ++ s } = wordNl w + s.data.count '\n' := by
  simp [wordNl]

theorem cueNl_append (a b : List Word) : cueNl (a ++ b) = cueNl a + cueNl b := by
  simp [cueNl]

theorem segStep_inv (L : ℕ) (st st' : SegState) (w : Word)
    (hw : wordNl w = 0) (hinv : SegInv st) (h : segStep L st w = some st') :
    SegInv st' := by
  obtain ⟨h1, h2, h3, h4⟩ := hinv
  by_cases hlen : st.len_line + w.word.length > L
  · by_cases hfull : st.line_index + 1 = allowed_lines
    · rw [segStep_len_yield L st w hlen hfull] at h
      injection h with h
      subst h
      refine ⟨by simp [allowed_lines], ?_, fun _ => rfl, ?_⟩
      · simp [cueNl, wordNl_append, hw, space_nl]
      · intro c hc
        rcases List.mem_append.mp hc with hc | hc
        · exact h4 c hc
        · simp only [List.mem_singleton] at hc
          subst hc
          constructor
          · intro e
            rw [h3 e] at hfull
            simp [allowed_lines] at hfull
          · rw [h2]
            simp [allowed_lines] at h1 hfull ⊢
            omega
    · rcases List.eq_nil_or_concat st.subtitle with hsub | ⟨l0, u, hsub⟩
      · rw [segStep_len_crash L st w hlen hfull hsub] at h
        cases h
      · rw [List.concat_eq_append] at hsub
        rw [segStep_len_mark L st w l0 u hlen hfull hsub] at h
        injection h with h
        subst h
        have hLidx : st.line_index = 0 := by
          simp [allowed_lines] at h1 hfull
          omega
        rw [hsub] at h2
        have h2a : cueNl l0 + wordNl u = st.line_index := by
          simpa [cueNl_append, cueNl] using h2
        refine ⟨?_, ?_, ?_, fun c hc => h4 c hc⟩
        · simp [allowed_lines, hLidx]
        · rw [cueNl_append, cueNl_append]
          simp [cueNl, wordNl_append, hw, space_nl, crlf_nl] at h2a ⊢
          omega
        · intro e
          simp at e
  · by_cases hp : sentenceEnd w.word = true
    · by_cases hfull : st.line_index + 1 = allowed_lines
      · rw [segStep_punc_yield L st w hlen hp hfull] at h
        injection h with h
        subst h
        refine ⟨by simp [allowed_lines], by simp [cueNl], fun _ => rfl, ?_⟩
        intro c hc
        rcases List.mem_append.mp hc with hc | hc
        · exact h4 c hc
        · simp only [List.mem_singleton] at hc
          subst hc
          refine ⟨by simp, ?_⟩
          rw [cueNl_append, h2]
          simp [allowed_lines, cueNl, hw] at h1 hfull ⊢
          omega
      · rw [segStep_punc_mark L st w hlen hp hfull] at h
        injection h with h
        subst h
        have hLidx : st.line_index = 0 := by
          simp [allowed_lines] at h1 hfull
          omega
        refine ⟨?_, ?_, ?_, fun c hc => h4 c hc⟩
        · simp [allowed_lines, hLidx]
        · rw [cueNl_append, h2]
          simp [cueNl, wordNl_append, hw, crlf_nl]
        · intro e
          simp at e
    · have hp2 : sentenceEnd w.word = false := by
        simpa using hp
      rw [segStep_no_break L st w hlen hp2] at h
      injection h with h
      subst h
      refine ⟨h1, ?_, ?_, h4⟩
      · rw [cueNl_append, h2]
        simp [cueNl, wordNl_append, hw, space_nl]
      · intro e
        simp at e

theorem segRun_inv (L : ℕ) (ws : List Word) :
    ∀ st : SegState, SegInv st → (∀ w ∈ ws, wordNl w = 0) →
    SegInv (segRun L st ws).1 := by
  induction ws with
  | nil => exact fun st hst _ => hst
  | cons w ws ih =>
    intro st hst hws
    cases hstep : segStep L st w with
    | none => simpa [segRun, hstep] using hst
    | some st1 =>
      have : segRun L st (w :: ws) = segRun L st1 ws := by
        simp [segRun, hstep]
      rw [this]
      exact ih st1 (segStep_inv L st st1 w (hws w (by simp)) hst hstep)
        (fun v hv => hws v (by simp [hv]))

theorem adjustGo_chain (m : ℚ) (rest : List Subtitle) :
    ∀ (prev : Subtitle), prev ≠ [] → (∀ c ∈ rest, c ≠ []) →
    List.Chain' (fun a b => subEnd a ≤ subStart b) (prev :: rest) →
    List.Chain' (fun a b => subEnd a ≤ subStart b) (adjustGo m prev rest) := by
  induction rest with
  | nil => intro prev _ _ _; simp [adjustGo]
  | cons curr tail ih =>
    intro prev hp hne hchain
    have hcurr : curr ≠ [] := hne curr (by simp)
    have hpc : subEnd prev ≤ subStart curr := (List.chain'_cons.mp hchain).1
    have htail := (List.chain'_cons.mp hchain).2
    cases tail with
    | nil =>
      simp only [adjustGo, List.isEmpty_eq_true]
      rw [if_neg hcurr]
      exact List.chain'_pair.mpr (adjustEmit_le m prev curr hp hpc)
    | cons next tail2 =>
      have hgo := ih curr hcurr (fun c hc => hne c (by simp [hc])) htail
      have hhead : subEnd (adjustEmit m prev curr) ≤
          subStart (adjustEmit m curr next) := by
        rw [subStart_adjustEmit]
        exact adjustEmit_le m prev curr hp hpc
      show List.Chain' _ (adjustEmit m prev curr :: adjustGo m curr (next :: tail2))
      cases tail2 with
      | nil => exact List.chain'_cons.mpr ⟨hhead, hgo⟩
      | cons n2 t2 => exact List.chain'_cons.mpr ⟨hhead, hgo⟩

/- Claim theorems. -/

/-- C1 (code bug): the claim says `_adjust_duration` emits the final
remaining cue unmodified after the source is exhausted, in particular
that a one-cue input yields that cue as sole output.  The code instead
ends with `if this_sub: yield this_sub`, and when the loop never ran
(exactly one input cue) `this_sub` is still `None`: the sole cue is
silently dropped.  Evaluation at the failing input: one cue in, zero cues
out, no error raised. -/
theorem c1_sole_cue_dropped :
    adjust_duration 1 [[⟨"hello", 0, 5⟩]] = ([], false) := rfl

/-- C2 (code bug): the claim says `words_to_srt` on an empty word stream
completes normally and writes nothing.  The segmenter indeed yields no
cues without error, but `_adjust_duration` starts with a bare
`next(subtitles)`, whose `StopIteration` is converted by PEP 479
(Python ≥ 3.7) into a `RuntimeError` escaping the generator, so the
pipeline raises instead of completing. -/
theorem c2_empty_stream_raises :
    words_to_subtitles 1 32 [] = ([], false) ∧ words_to_srt [] = none := by
  constructor <;> rfl

/-- C3 counterexample: under only the claim's hypotheses (cue start
times non-decreasing, each word's `end_time ≥ start_time`) the emitted
cues can overlap: with input cues `[("a",0,5)]`, `[("b",2,3)]` the first
cue's duration `5 ≥ 1` makes the adjuster pass it through unchanged, and
its end time `5` exceeds the next cue's start time `2`. -/
theorem c3_counterexample :
    (adjust_duration 1 [[⟨"a", 0, 5⟩], [⟨"b", 2, 3⟩]]).1 =
      [[⟨"a", 0, 5⟩], [⟨"b", 2, 3⟩]] ∧
    subStart [(⟨"a", 0, 5⟩ : Word)] ≤ subStart [(⟨"b", 2, 3⟩ : Word)] ∧
    ¬ subEnd [(⟨"a", 0, 5⟩ : Word)] ≤ subStart [(⟨"b", 2, 3⟩ : Word)] := by
  refine ⟨by with_unfolding_all rfl, ?_, ?_⟩
  · show (0 : ℚ) ≤ 2
    norm_num
  · show ¬ (5 : ℚ) ≤ 2
    norm_num

/-- C3 (amended): if in addition the input cues are non-empty and already
pairwise non-overlapping (each cue's end time at most the next cue's
start time), then every pair of adjacent cues emitted by
`_adjust_duration` satisfies `end_time[i] ≤ start_time[i+1]`. -/
theorem c3_adjacent_nonoverlap (m : ℚ) (subs : List Subtitle)
    (h1 : ∀ c ∈ subs, c ≠ [])
    (h2 : List.Chain' (fun a b => subEnd a ≤ subStart b) subs) :
    List.Chain' (fun a b => subEnd a ≤ subStart b) (adjust_duration m subs).1 := by
  cases subs with
  | nil => simp [adjust_duration]
  | cons prev rest =>
    exact adjustGo_chain m rest prev (h1 prev (by simp))
      (fun c hc => h1 c (by simp [hc])) h2

/-- C3 witness: the amended theorem applied to the concrete
non-overlapping input `[("a",0,1)], [("b",1,2)]`. -/
theorem c3_witness :
    List.Chain' (fun a b => subEnd a ≤ subStart b)
      (adjust_duration 1 [[⟨"a", 0, 1⟩], [⟨"b", 1, 2⟩]]).1 := by
  apply c3_adjacent_nonoverlap
  · intro c hc
    simp only [List.mem_cons, List.mem_singleton] at hc
    rcases hc with rfl | rfl | h
    · simp
    · simp
    · simp at h
  · refine List.chain'_pair.mpr ?_
    show (1 : ℚ) ≤ 1
    exact le_refl 1

/-- C4 counterexample: the claim states (with no hypothesis on the input)
that an assigned `end_time` is never below the original.  With
overlapping input cues `[("a",0,1/2)], [("b",3/10,2)]` the first cue's
duration `1/2 < 1` triggers the fix, and since
`0 + 1 > 3/10` the code assigns `end_time := 3/10`, strictly below the
original `1/2`. -/
theorem c4_counterexample :
    (adjust_duration 1 [[⟨"a", 0, 1/2⟩], [⟨"b", 3/10, 2⟩]]).1 =
      [[⟨"a", 0, 3/10⟩], [⟨"b", 3/10, 2⟩]] ∧
    ¬ ((1 : ℚ)/2 ≤ 3/10) := by
  constructor
  · with_unfolding_all rfl
  · norm_num

/-- C4 (amended): provided the cue being adjusted is non-empty and does
not overlap the following cue (`end_time ≤ next start_time`), the end
time assigned by the loop body of `_adjust_duration` (lines 132–138) is
at least the original end time: adjustment never shrinks `end_time`. -/
theorem c4_end_time_monotone (m : ℚ) (prev curr : Subtitle) (hp : prev ≠ [])
    (h : subEnd prev ≤ subStart curr) :
    subEnd prev ≤ subEnd (adjustEmit m prev curr) := by
  unfold adjustEmit
  split
  · exact le_refl _
  · next h1 =>
    split
    · rw [subEnd_setEnd _ _ hp]
      exact h
    · rw [subEnd_setEnd _ _ hp]
      have := lt_of_not_ge h1
      linarith

/-- C4 witness: the amended theorem at `prev = [("a",0,2)]`,
`curr = [("b",4,5)]`, `min_sub_duration = 3` (the assignment branch
fires and raises the end time from 2 to 3). -/
theorem c4_witness :
    subEnd [(⟨"a", 0, 2⟩ : Word)] ≤
      subEnd (adjustEmit 3 [⟨"a", 0, 2⟩] [⟨"b", 4, 5⟩]) := by
  apply c4_end_time_monotone
  · simp
  · show (2 : ℚ) ≤ 4
    norm_num

/-- C5 (code bug): the claim says the rendered text reproduces every
input word.  For the single word `("hi.",0,5)` the segmenter yields one
cue containing it, but `_adjust_duration` drops a sole cue (see C1), so
the completed pipeline writes the empty string: the word is lost. -/
theorem c5_single_cue_words_lost :
    words_to_srt [⟨"hi.", 0, 5⟩] = some "" ∧
    (words_to_subtitles 1 32 [⟨"hi.", 0, 5⟩]).1 = [[⟨"hi.\r\n", 0, 5⟩]] := by
  constructor <;> with_unfolding_all rfl

/-- C6 counterexample: on the spec's example words the segmenter yields
exactly one cue, but its rendered caption text is
`"the quick brown fox.\r\n"` — the sentence-ending word carries the
inserted line separator, not the trailing space `"the quick brown fox. "`
stated by the claim. -/
theorem c6_counterexample :
    (words_to_subtitles 1 32 exampleWords).1.map sentence =
      ["the quick brown fox.\r\n"] ∧
    "the quick brown fox.\r\n" ≠ "the quick brown fox. " := by
  constructor
  · with_unfolding_all rfl
  · decide

/-- C6 (amended): on the example words the segmenter emits exactly one
cue without error and `_write_srt` renders it as index `1`, timecode
`00:00:00,000 --> 00:00:01,300` and caption text
`"the quick brown fox.\r\n"` (followed by the block's own newline and
blank line).  Note the full `words_to_srt` pipeline would additionally
drop this sole cue in `_adjust_duration` (claim C1). -/
theorem c6_example_render :
    (words_to_subtitles 1 32 exampleWords).2 = false ∧
    write_srt (words_to_subtitles 1 32 exampleWords).1 =
      "1\n00:00:00,000 --> 00:00:01,300\nthe quick brown fox.\r\n\n\n" := by
  constructor <;> with_unfolding_all rfl

/-- C7 counterexample: the claim says a first word on a fresh line is
never rejected for length and causes no error even if longer than
`max_line_length`.  In the code the check `len_line + len(word) > 32`
fires with `len_line = 0` for a 33-character word, and since the cue
buffer is empty the break handler's `subtitle[-1]` raises `IndexError`:
the run aborts with no cue emitted. -/
theorem c7_counterexample :
    words_to_subtitles 1 32 [⟨String.mk (List.replicate 33 'a'), 0, 1⟩] =
      ([], true) := by
  with_unfolding_all rfl

/-- C7 (amended): a word arriving on a fresh line (`len_line = 0`) is
placed on that line without a break and without error exactly when its
own length does not exceed `max_line_length` (stated here for
non-sentence-ending words; the fresh-line length check applies to the
incoming word alone, so a longer word does trigger the length break —
and an `IndexError` when the cue buffer is empty, see the
counterexample). -/
theorem c7_fresh_line_placement (L : ℕ) (st : SegState) (w : Word)
    (h0 : st.len_line = 0) (hlen : w.word.length ≤ L)
    (hp : sentenceEnd w.word = false) :
    segStep L st w = some { st with
      subtitle := st.subtitle ++ [{ w with word := w.word ++ " " }],
      len_line := w.word.length + 1 } := by
  have h := segStep_no_break L st w (by omega) hp
  rw [h, h0]
  simp

/-- C7 witness: the amended theorem at the initial segmenter state and
the five-character word `"hello"` with `max_line_length = 32`. -/
theorem c7_witness :
    segStep 32 ⟨[], [], 0, 0⟩ ⟨"hello", 0, 1⟩ =
      some ⟨[], [⟨"hello ", 0, 1⟩], 6, 0⟩ := by
  have h := c7_fresh_line_placement 32 ⟨[], [], 0, 0⟩ ⟨"hello", 0, 1⟩ rfl
    (by decide) (by decide)
  simpa using h

/-- C8 counterexample: `"dog."` is sentence-ending, but because the
preceding line already holds 31 characters the length check fires first
(the punctuation branch is an `elif`), so the word is appended *after*
the break: the emitted cue reads `"a…a \r\n" · "dog. "`, not
`"a…a " · "dog.\r\n"` as the claim's append-before-break (even on length
failure) would produce. -/
theorem c8_counterexample :
    (words_to_subtitles 1 32
        [⟨String.mk (List.replicate 30 'a'), 0, 1⟩, ⟨"dog.", 1, 2⟩]).1 =
      [[⟨String.mk (List.replicate 30 'a') ++ " \r\n", 0, 1⟩,
        ⟨"dog. ", 1, 2⟩]] ∧
    sentenceEnd "dog." = true := by
  constructor
  · with_unfolding_all rfl
  · decide

/-- C8 (amended): a break is decided exactly when the length condition
`len_line + len(word) > max_line_length` holds or the word is
sentence-ending; the word is appended to the current line *before* the
break only in the pure sentence-end case (length condition false).  When
the length condition holds the word is appended *after* the break —
whether or not it is sentence-ending — and when neither condition holds
no break occurs and the word is appended with a trailing space. -/
theorem c8_break_decision (L : ℕ) (st : SegState) (w : Word) :
    (st.len_line + w.word.length ≤ L → sentenceEnd w.word = false →
      segStep L st w = some { st with
        subtitle := st.subtitle ++ [{ w with word := w.word ++ " " }],
        len_line := st.len_line + (w.word.length + 1) }) ∧
    (st.len_line + w.word.length ≤ L → sentenceEnd w.word = true →
      st.line_index + 1 ≠ allowed_lines →
      segStep L st w = some { st with
        subtitle := st.subtitle ++ [{ w with word := w.word ++ "\r\n" }],
        len_line := 0, line_index := st.line_index + 1 }) ∧
    (st.len_line + w.word.length > L → st.line_index + 1 ≠ allowed_lines →
      ∀ l0 u, st.subtitle = l0 ++ [u] →
      segStep L st w = some
        { out := st.out,
          subtitle := (l0 ++ [{ u with word := u.word ++ "\r\n" }]) ++
            [{ w with word := w.word ++ " " }],
          len_line := w.word.length + 1,
          line_index := st.line_index + 1 }) := by
  refine ⟨?_, ?_, ?_⟩
  · intro hle hp
    exact segStep_no_break L st w (by omega) hp
  · intro hle hp hfull
    exact segStep_punc_mark L st w (by omega) hp hfull
  · intro hgt hfull l0 u hsub
    exact segStep_len_mark L st w l0 u hgt hfull hsub

/-- C8 witness: the sentence-end part of the amended theorem at a state
holding `"a "` on the current line and the incoming word `"dog."` (the
word itself receives the line separator). -/
theorem c8_witness :
    segStep 32 ⟨[], [⟨"a ", 0, 1⟩], 2, 0⟩ ⟨"dog.", 1, 2⟩ =
      some ⟨[], [⟨"a ", 0, 1⟩, ⟨"dog.\r\n", 1, 2⟩], 0, 1⟩ := by
  have h := (c8_break_decision 32 ⟨[], [⟨"a ", 0, 1⟩], 2, 0⟩
    ⟨"dog.", 1, 2⟩).2.1 (by decide) (by decide) (by decide)
  simpa using h

/-- C9 (confirmed): for word texts free of newline characters, every cue
emitted by `_words_to_subtitles` — also on runs aborted by the
`IndexError` of claim C7 — is non-empty and carries at most
`allowed_lines - 1 = 1` inserted line-separator markers, i.e. spans at
most two physical lines. -/
theorem c9_cues_nonempty_and_bounded (p : ℚ) (L : ℕ) (ws : List Word)
    (h : ∀ w ∈ ws, wordNl w = 0) :
    ∀ c ∈ (words_to_subtitles p L ws).1, c ≠ [] ∧ cueNl c ≤ allowed_lines - 1 := by
  intro c hc
  have hinv : SegInv (segRun L ⟨[], [], 0, 0⟩ ws).1 :=
    segRun_inv L ws ⟨[], [], 0, 0⟩
      ⟨by simp [allowed_lines], rfl, fun _ => rfl, by simp⟩ h
  simp only [words_to_subtitles] at hc
  rcases hre : segRun L ⟨[], [], 0, 0⟩ ws with ⟨st, err⟩
  rw [hre] at hinv hc
  obtain ⟨h1, h2, h3, h4⟩ := hinv
  cases err with
  | true => exact h4 c (by simpa using hc)
  | false =>
    by_cases he : st.subtitle.isEmpty
    · simp only [he] at hc
      exact h4 c (by simpa using hc)
    · simp only [he] at hc
      simp at hc
      rcases hc with hc2 | hc2
      · exact h4 c hc2
      · subst hc2
        refine ⟨by simpa using he, ?_⟩
        rw [h2]
        simp [allowed_lines] at h1 ⊢
        omega

/-- C9 witness: the theorem applied to the one-word input `("hi",0,1)`
and the emitted cue `[("hi ",0,1)]`. -/
theorem c9_witness :
    ([⟨"hi ", 0, 1⟩] : Subtitle) ≠ [] ∧
    cueNl [⟨"hi ", 0, 1⟩] ≤ allowed_lines - 1 := by
  have hmem : ([⟨"hi ", 0, 1⟩] : Subtitle) ∈
      (words_to_subtitles 1 32 [⟨"hi", 0, 1⟩]).1 := by
    have he : (words_to_subtitles 1 32 [⟨"hi", 0, 1⟩]).1 =
        [[⟨"hi ", 0, 1⟩]] := by
      with_unfolding_all rfl
    rw [he]
    simp
  exact c9_cues_nonempty_and_bounded 1 32 [⟨"hi", 0, 1⟩] (by decide)
    [⟨"hi ", 0, 1⟩] hmem

/-- C10 (confirmed): `_words_to_subtitles` accepts `split_on_pause_gt`
but never consults it, so its output — cues and error behaviour alike —
is identical for any two values of the pause threshold. -/
theorem c10_pause_parameter_inert (p1 p2 : ℚ) (L : ℕ) (ws : List Word) :
    words_to_subtitles p1 L ws = words_to_subtitles p2 L ws := rfl

end Substream
